import Mathlib

/-!
Verification of the Córdoba tourist-assistant RAG pipeline.

Shallow embedding of the repository's chunking module
(`src/cordoba_rag/chunking.py`), retrieval service
(`src/cordoba_rag/services/rag_service.py`) and deterministic-id
ingestion script (`scripts/upsert_chunks.py`).  Python strings are
modelled as `List Char`; Python `int` values that are provably
non-negative on the claims' domains are modelled as `Nat`, and the
`ValueError` raised by `range(0, n, 0)` is modelled with `Except`.
-/

namespace Cordoba

/-! ### Python string primitives on `List Char` -/

/-- Python's notion of whitespace for `str.strip` / `\s` (ASCII range,
which covers every character appearing in this repository's data). -/
def isWs (c : Char) : Bool :=
  c = ' ' || c = '\t' || c = '\n' || c = '\r' || c = '\x0b' || c = '\x0c'

/-- Convert a Lean string literal to the `List Char` model. -/
def pystr (s : String) : List Char := s.toList

/-- `s.lstrip()`. -/
def lstrip (s : List Char) : List Char := s.dropWhile isWs

/-- `s.rstrip()`. -/
def rstrip (s : List Char) : List Char := (s.reverse.dropWhile isWs).reverse

/-- `s.strip()`. -/
def pstrip (s : List Char) : List Char := lstrip (rstrip s)

/-- `" ".join(parts)`. -/
def joinSpace : List (List Char) → List Char
  | [] => []
  | [x] => x
  | x :: xs => x ++ ' ' :: joinSpace xs

/-- Python slice `s[a:b]` for `0 ≤ a ≤ b` (indices past the end are
clipped, exactly as in Python). -/
def slice (s : List Char) (a b : Nat) : List Char := (s.drop a).take (b - a)

/-- The last `k ≥ 1` characters of `s` (Python `s[-k:]` for `k ≥ 1`;
when `k ≥ len(s)` this is all of `s`). -/
def lastChars (k : Nat) (s : List Char) : List Char := s.drop (s.length - k)

/-- Python `s[-k:]` for arbitrary `k ≥ 0`: `-0` is `0`, so `s[-0:]`
is the whole string. -/
def pyLastSlice (k : Nat) (s : List Char) : List Char :=
  if k = 0 then s else lastChars k s

/-! ### `_pack_sentences` (chunking.py, lines 68-121) -/

/-- One output chunk: `{"id": cid, "text": text}`. -/
structure Chunk where
  id : Nat
  text : List Char
deriving DecidableEq, Repr

/-- The mutable state of `_pack_sentences`'s loop:
`chunks`, `buf`, `buf_len`, `cid`. -/
structure PackState where
  chunks : List Chunk
  buf : List (List Char)
  buf_len : Nat
  cid : Nat
deriving DecidableEq, Repr

/-- The `text = " ".join(buf).strip()` step of `flush` together with the
conditional `chunks.append` and `cid` bump (chunking.py, lines 86-89),
leaving an empty buffer. -/
def flushCore (st : PackState) : PackState :=
  if pstrip (joinSpace st.buf) ≠ [] then
    ⟨st.chunks ++ [⟨st.cid, pstrip (joinSpace st.buf)⟩], [], 0, st.cid + 1⟩
  else ⟨st.chunks, [], 0, st.cid⟩

/-- `flush(add_overlap)` (chunking.py, lines 82-96).  Appends the
joined, stripped buffer as a chunk when non-empty, then — when
`add_overlap` and `overlap > 0` and some chunk exists — seeds the new
buffer with the trailing `overlap` characters of the last chunk. -/
def flush (overlap : Nat) (addOverlap : Bool) (st : PackState) : PackState :=
  if st.buf = [] then st
  else
    let st1 := flushCore st
    if addOverlap = true ∧ 0 < overlap ∧ st1.chunks ≠ [] then
      match st1.chunks.getLast? with
      | some c =>
        if lastChars overlap c.text ≠ [] then
          ⟨st1.chunks, [lastChars overlap c.text], (lastChars overlap c.text).length, st1.cid⟩
        else st1
      | none => st1
    else st1

/-- The indices `0, step, 2*step, …` below `n` (Python
`range(0, n, step)` for `step ≥ 1`). -/
def rangeStep (n step : Nat) : List Nat :=
  (List.range ((n + step - 1) / step)).map (· * step)

/-- The hard-split pieces `s[i : i + chunk_size]` for
`i in range(0, len(s), chunk_size - overlap)` (only used with
`overlap < chunk_size`, where the step is positive). -/
def hardPieces (s : List Char) (chunkSize overlap : Nat) : List (List Char) :=
  (rangeStep s.length (chunkSize - overlap)).map (fun i => slice s i (i + chunkSize))

/-- Assign consecutive ids starting at `cid` to a list of texts. -/
def withIds (cid : Nat) : List (List Char) → List Chunk
  | [] => []
  | t :: ts => ⟨cid, t⟩ :: withIds (cid + 1) ts

/-- One iteration of the `for s in sents` loop of `_pack_sentences`
(chunking.py, lines 98-118).  `Except.error` models the `ValueError`
Python raises from `range(0, len(s), 0)` when `overlap = chunk_size`;
when `overlap > chunk_size` the Python range is empty and no piece is
emitted.  Note that both overflow branches overwrite the buffer that
`flush(add_overlap=True)` just seeded. -/
def packStep (chunkSize overlap : Nat) (st : PackState) (s : List Char) :
    Except String PackState :=
  if s = [] then .ok st
  else if st.buf_len + s.length + 1 ≤ chunkSize then
    .ok { st with buf := st.buf ++ [s], buf_len := st.buf_len + s.length + 1 }
  else
    let st1 := flush overlap true st
    if chunkSize < s.length then
      if overlap = chunkSize then .error "ValueError: range() arg 3 must not be zero"
      else
        let pieces := if overlap < chunkSize then hardPieces s chunkSize overlap else []
        if pyLastSlice overlap s ≠ [] then
          .ok ⟨st1.chunks ++ withIds st1.cid pieces, [pyLastSlice overlap s],
               (pyLastSlice overlap s).length, st1.cid + pieces.length⟩
        else
          .ok ⟨st1.chunks ++ withIds st1.cid pieces, [], 0, st1.cid + pieces.length⟩
    else .ok { st1 with buf := [s], buf_len := s.length }

/-- `_pack_sentences(sents, chunk_size, overlap)` (chunking.py,
lines 68-121): the loop over sentences followed by the final
`flush(add_overlap=False)`. -/
def packSentences (sents : List (List Char)) (chunkSize overlap : Nat) :
    Except String (List Chunk) :=
  match sents.foldlM (packStep chunkSize overlap) ⟨[], [], 0, 0⟩ with
  | .error e => .error e
  | .ok st => .ok ((flush overlap false st).chunks)

/-! ### Length bookkeeping lemmas for `_pack_sentences` -/

theorem rstrip_length_le (s : List Char) : (rstrip s).length ≤ s.length := by
  unfold rstrip
  simpa using (List.dropWhile_sublist (l := s.reverse) isWs).length_le

theorem pstrip_length_le (s : List Char) : (pstrip s).length ≤ s.length :=
  le_trans ((List.dropWhile_sublist (l := rstrip s) isWs).length_le) (rstrip_length_le s)

theorem slice_length_le (s : List Char) (a b : Nat) : (slice s a b).length ≤ b - a := by
  unfold slice
  simp [List.length_take]

theorem lastChars_length_le (k : Nat) (s : List Char) : (lastChars k s).length ≤ k := by
  unfold lastChars
  simp only [List.length_drop]
  omega

theorem joinSpace_cons_cons (y z : List Char) (w : List (List Char)) :
    joinSpace (y :: z :: w) = y ++ ' ' :: joinSpace (z :: w) := rfl

theorem joinSpace_append (l : List (List Char)) (x : List Char) (h : l ≠ []) :
    joinSpace (l ++ [x]) = joinSpace l ++ ' ' :: x := by
  induction l with
  | nil => exact absurd rfl h
  | cons y ys ih =>
    cases ys with
    | nil => rfl
    | cons z zs =>
      have h2 := ih (List.cons_ne_nil z zs)
      simp only [List.cons_append] at h2 ⊢
      rw [joinSpace_cons_cons, joinSpace_cons_cons, h2]
      simp

/-- The invariant maintained by the packing loop (for
`0 < overlap < chunk_size`): all emitted chunks fit the budget, and the
buffer's joined length is bounded by the tracked `buf_len ≤ chunk_size`. -/
def PackInv (chunkSize : Nat) (st : PackState) : Prop :=
  (∀ c ∈ st.chunks, c.text.length ≤ chunkSize) ∧
  (joinSpace st.buf).length ≤ st.buf_len ∧ st.buf_len ≤ chunkSize

theorem withIds_text_bound {chunkSize : Nat} {ts : List (List Char)}
    (h : ∀ t ∈ ts, t.length ≤ chunkSize) (cid : Nat) :
    ∀ c ∈ withIds cid ts, c.text.length ≤ chunkSize := by
  induction ts generalizing cid with
  | nil => intro c hc; simp [withIds] at hc
  | cons t ts ih =>
    intro c hc
    rw [withIds] at hc
    rcases List.mem_cons.mp hc with hc | hc
    · subst hc; exact h t (by simp)
    · exact ih (fun u hu => h u (by simp [hu])) (cid + 1) c hc

theorem lastChars_length_le_self (k : Nat) (s : List Char) :
    (lastChars k s).length ≤ s.length := by
  unfold lastChars
  simp [List.length_drop]

theorem flushCore_inv {chunkSize : Nat} {st : PackState}
    (h : PackInv chunkSize st) : PackInv chunkSize (flushCore st) := by
  obtain ⟨hc, hb, hbl⟩ := h
  unfold flushCore
  by_cases hne : pstrip (joinSpace st.buf) ≠ []
  · rw [if_pos hne]
    refine ⟨?_, by simp [joinSpace], Nat.zero_le _⟩
    intro c hcmem
    rcases List.mem_append.mp hcmem with hmem | hmem
    · exact hc c hmem
    · simp only [List.mem_singleton] at hmem
      subst hmem
      exact le_trans (pstrip_length_le _) (le_trans hb hbl)
  · rw [if_neg hne]
    exact ⟨hc, by simp [joinSpace], Nat.zero_le _⟩

theorem flush_inv {chunkSize overlap : Nat} {st : PackState} (add : Bool)
    (h : PackInv chunkSize st) : PackInv chunkSize (flush overlap add st) := by
  unfold flush
  by_cases hbuf : st.buf = []
  · rw [if_pos hbuf]; exact h
  · rw [if_neg hbuf]
    have h1 : PackInv chunkSize (flushCore st) := flushCore_inv h
    obtain ⟨hc1, hb1, hbl1⟩ := h1
    by_cases hcond : add = true ∧ 0 < overlap ∧ (flushCore st).chunks ≠ []
    · rw [if_pos hcond]
      cases hlast : (flushCore st).chunks.getLast? with
      | none => exact ⟨hc1, hb1, hbl1⟩
      | some c =>
        dsimp only
        have hcmem : c ∈ (flushCore st).chunks := List.mem_of_mem_getLast? hlast
        have hclen : c.text.length ≤ chunkSize := hc1 c hcmem
        by_cases htail : lastChars overlap c.text ≠ []
        · rw [if_pos htail]
          exact ⟨hc1, le_of_eq rfl,
            le_trans (lastChars_length_le_self overlap c.text) hclen⟩
        · rw [if_neg htail]
          exact ⟨hc1, hb1, hbl1⟩
    · rw [if_neg hcond]
      exact ⟨hc1, hb1, hbl1⟩

theorem packStep_inv {chunkSize overlap : Nat} {st st' : PackState} {s : List Char}
    (h : PackInv chunkSize st) (hov : 0 < overlap) (hlt : overlap < chunkSize)
    (hstep : packStep chunkSize overlap st s = .ok st') : PackInv chunkSize st' := by
  obtain ⟨hc, hb, hbl⟩ := h
  unfold packStep at hstep
  by_cases hs : s = []
  · rw [if_pos hs] at hstep
    cases hstep; exact ⟨hc, hb, hbl⟩
  · rw [if_neg hs] at hstep
    by_cases hfit : st.buf_len + s.length + 1 ≤ chunkSize
    · rw [if_pos hfit] at hstep
      cases hstep
      refine ⟨hc, ?_, hfit⟩
      by_cases hbuf : st.buf = []
      · simp only [hbuf]
        show (joinSpace [s]).length ≤ _
        unfold joinSpace
        omega
      · show (joinSpace (st.buf ++ [s])).length ≤ _
        rw [joinSpace_append st.buf s hbuf]
        simp only [List.length_append, List.length_cons]
        omega
    · rw [if_neg hfit] at hstep
      have hst1 : PackInv chunkSize (flush overlap true st) := flush_inv true ⟨hc, hb, hbl⟩
      obtain ⟨hc1, hb1, hbl1⟩ := hst1
      by_cases hbig : chunkSize < s.length
      · rw [if_pos hbig] at hstep
        rw [if_neg (by omega : ¬ overlap = chunkSize)] at hstep
        simp only [if_pos hlt] at hstep
        have htail0 : pyLastSlice overlap s = lastChars overlap s := by
          unfold pyLastSlice; rw [if_neg (by omega)]
        have hpieces : ∀ t ∈ hardPieces s chunkSize overlap, t.length ≤ chunkSize := by
          intro t ht
          unfold hardPieces at ht
          obtain ⟨i, _, rfl⟩ := List.mem_map.mp ht
          calc (slice s i (i + chunkSize)).length ≤ i + chunkSize - i := slice_length_le _ _ _
            _ = chunkSize := by omega
        have hboth : ∀ c ∈ (flush overlap true st).chunks ++
            withIds (flush overlap true st).cid (hardPieces s chunkSize overlap),
            c.text.length ≤ chunkSize := by
          intro c hcmem
          rcases List.mem_append.mp hcmem with hmem | hmem
          · exact hc1 c hmem
          · exact withIds_text_bound hpieces _ c hmem
        by_cases htail : pyLastSlice overlap s ≠ []
        · rw [if_pos htail] at hstep
          cases hstep
          refine ⟨hboth, le_of_eq ?_, ?_⟩
          · show (joinSpace [pyLastSlice overlap s]).length = _
            rfl
          · show (pyLastSlice overlap s).length ≤ _
            rw [htail0]
            exact le_trans (lastChars_length_le overlap s) (le_of_lt hlt)
        · rw [if_neg htail] at hstep
          cases hstep
          exact ⟨hboth, by simp [joinSpace], Nat.zero_le _⟩
      · rw [if_neg hbig] at hstep
        cases hstep
        refine ⟨hc1, le_of_eq ?_, ?_⟩
        · show (joinSpace [s]).length = _
          rfl
        · show s.length ≤ chunkSize
          omega

theorem packStep_ok (chunkSize overlap : Nat) (st : PackState) (s : List Char)
    (hne : overlap ≠ chunkSize) :
    ∃ st', packStep chunkSize overlap st s = .ok st' := by
  unfold packStep
  by_cases hs : s = []
  · exact ⟨st, by rw [if_pos hs]⟩
  · rw [if_neg hs]
    by_cases hfit : st.buf_len + s.length + 1 ≤ chunkSize
    · exact ⟨_, by rw [if_pos hfit]⟩
    · rw [if_neg hfit]
      by_cases hbig : chunkSize < s.length
      · rw [if_pos hbig, if_neg hne]
        by_cases htail : pyLastSlice overlap s ≠ []
        · exact ⟨_, by rw [if_pos htail]⟩
        · exact ⟨_, by rw [if_neg htail]⟩
      · exact ⟨_, by rw [if_neg hbig]⟩

theorem packFold_inv {chunkSize overlap : Nat} (sents : List (List Char))
    (st : PackState) (h : PackInv chunkSize st) (hov : 0 < overlap)
    (hlt : overlap < chunkSize) :
    ∃ st', List.foldlM (packStep chunkSize overlap) st sents = .ok st' ∧
      PackInv chunkSize st' := by
  induction sents generalizing st with
  | nil => exact ⟨st, rfl, h⟩
  | cons s rest ih =>
    obtain ⟨st1, hst1⟩ := packStep_ok chunkSize overlap st s (by omega)
    obtain ⟨st', hfold, hinv⟩ := ih st1 (packStep_inv h hov hlt hst1)
    refine ⟨st', ?_, hinv⟩
    rw [List.foldlM_cons, hst1]
    exact hfold

/-! ### Claim C2: chunk-length bound -/

/-- C2 (counterexample): the claim fails at overlap = 0.  With
`sents = ["aaaaaaa"]`, `chunk_size = 5`, `overlap = 0`, the hard-split
path computes `tail = s[-0:]`, which in Python is the *whole* sentence;
the final flush then emits it as a chunk of length 7 > 5. -/
theorem claim_C2_counterexample :
    packSentences [pystr "aaaaaaa"] 5 0 =
      .ok [⟨0, pystr "aaaaa"⟩, ⟨1, pystr "aa"⟩, ⟨2, pystr "aaaaaaa"⟩] ∧
    5 < (pystr "aaaaaaa").length :=
  ⟨rfl, by decide⟩

/-- C2 (amended): for every sentence list and every configuration with
`chunk_size > overlap ≥ 1`, `_pack_sentences` succeeds and every produced
chunk (including every hard-split piece) has text length ≤ `chunk_size`.
(For `overlap = 0` the bound can fail, because the hard-split branch
re-seeds the buffer with `s[-0:]`, i.e. the entire oversized sentence.) -/
theorem claim_C2 (sents : List (List Char)) (chunkSize overlap : Nat)
    (hov : 0 < overlap) (hlt : overlap < chunkSize) :
    ∃ out, packSentences sents chunkSize overlap = .ok out ∧
      ∀ c ∈ out, c.text.length ≤ chunkSize := by
  obtain ⟨st, hfold, hinv⟩ := packFold_inv sents ⟨[], [], 0, 0⟩
    ⟨by simp, by simp [joinSpace], Nat.zero_le _⟩ hov hlt
  refine ⟨(flush overlap false st).chunks, ?_, (flush_inv false hinv).1⟩
  unfold packSentences
  rw [hfold]

/-- Witness for C2 at a concrete input. -/
theorem claim_C2_witness :
    ∃ out, packSentences [pystr "hola", pystr "mundo grande hoy"] 10 2 = .ok out ∧
      ∀ c ∈ out, c.text.length ≤ 10 :=
  claim_C2 [pystr "hola", pystr "mundo grande hoy"] 10 2 (by decide) (by decide)

/-! ### Claim C8: overlap ≥ chunk_size is not rejected or capped -/

/-- C8: `_pack_sentences` performs no validation of
`overlap ≥ chunk_size`.  With `overlap = chunk_size` the hard-split loop
is `range(0, len(s), 0)`, which raises an uncontrolled `ValueError`; with
`overlap > chunk_size` the range is empty, so the oversized sentence's
text is silently dropped except for its trailing `overlap` characters
(here 13 of 20 characters are lost). -/
theorem claim_C8 :
    packSentences [pystr "aaaaaa"] 5 5 =
      .error "ValueError: range() arg 3 must not be zero" ∧
    packSentences [pystr "abcdefghijklmnopqrst"] 5 7 =
      .ok [⟨0, pystr "nopqrst"⟩] :=
  ⟨rfl, rfl⟩

/-! ### Claim C4: the over-sampling factor of `ask`
(rag_service.py, line 102) -/

/-- `initial_k = min(max(req.top_k * 3, req.top_k), 50)`. -/
def initial_k (topk : Int) : Int := min (max (topk * 3) topk) 50

/-- C4: for every `top_k ≥ 1` the number of candidates requested from the
vector index equals `clamp(top_k * 3, top_k, 50) = min(max(top_k * 3,
top_k), 50) = min(top_k * 3, 50)`; in particular `top_k = 5` gives 15,
`top_k = 20` gives 50 and `top_k = 1` gives 3. -/
theorem claim_C4 (k : Int) (h : 1 ≤ k) :
    initial_k k = min (max (k * 3) k) 50 ∧ initial_k k = min (k * 3) 50 ∧
    initial_k 5 = 15 ∧ initial_k 20 = 50 ∧ initial_k 1 = 3 := by
  refine ⟨rfl, ?_, by decide, by decide, by decide⟩
  unfold initial_k
  rw [max_eq_left (by omega : k ≤ k * 3)]

/-- Witness for C4 at `top_k = 5`. -/
theorem claim_C4_witness :
    initial_k 5 = min (max (5 * 3) 5) 50 ∧ initial_k 5 = min (5 * 3) 50 ∧
    initial_k 5 = 15 ∧ initial_k 20 = 50 ∧ initial_k 1 = 3 :=
  claim_C4 5 (by decide)

/-! ### Claim C3: local re-ranking in `ask`
(rag_service.py, lines 120-129)

`ranked.sort(key=lambda t: t[1], reverse=True)` is CPython's stable sort
on the similarity component.  A stable sort is extensionally determined
by its comparison, so it is modelled by a stable insertion sort: each
element of the original list is inserted, in order, after every
already-placed element whose key is ≥ its own. -/

/-- Insert `a` before the first element `b` with `before a b`; `before`
is the "strictly better rank" test. -/
def insertBy {α : Type} (before : α → α → Bool) (a : α) : List α → List α
  | [] => [a]
  | b :: bs => if before a b then a :: b :: bs else b :: insertBy before a bs

/-- Stable sort: fold the list left to right, inserting each element
after all already-placed elements it does not strictly beat (Python
`list.sort` semantics for the given comparison). -/
def sortBy {α : Type} (before : α → α → Bool) (l : List α) : List α :=
  l.foldl (fun acc a => insertBy before a acc) []

/-- The code's comparison on `(point, sim)` tuples:
`key=lambda t: t[1], reverse=True`. -/
def simBefore {α K : Type} [LinearOrder K] (a b : α × K) : Bool :=
  decide (b.2 < a.2)

/-- Lines 120-129 of `rag_service.py`: pair each candidate with its
locally recomputed similarity, stable-sort by similarity descending,
truncate to `top_k` and project back to the candidates. -/
def rerank {α K : Type} [LinearOrder K] (sim : α → K) (pts : List α) (topk : Nat) :
    List α :=
  ((sortBy simBefore (pts.map (fun p => (p, sim p)))).take topk).map Prod.fst

/-- Index-annotated candidates `(original position, (point, sim))`. -/
def enumFrom {α : Type} (i : Nat) : List α → List (Nat × α)
  | [] => []
  | a :: l => (i, a) :: enumFrom (i + 1) l

/-- Modelled from the spec: strict "ranks strictly earlier" relation —
larger similarity first, ties broken by smaller original retrieval
index. -/
def rankedBefore {α K : Type} [LinearOrder K] (a b : Nat × α × K) : Prop :=
  b.2.2 < a.2.2 ∨ (a.2.2 = b.2.2 ∧ a.1 < b.1)

/-- Non-strict version of `rankedBefore`. -/
def rankedLe {α K : Type} [LinearOrder K] (a b : Nat × α × K) : Prop :=
  b.2.2 < a.2.2 ∨ (a.2.2 = b.2.2 ∧ a.1 ≤ b.1)

/-- Boolean test for `rankedBefore`. -/
def rankedBeforeB {α K : Type} [LinearOrder K] (a b : Nat × α × K) : Bool :=
  decide (b.2.2 < a.2.2) || (decide (a.2.2 = b.2.2) && decide (a.1 < b.1))

/-- Modelled from the spec: the candidates sorted by locally recomputed
similarity descending, ties broken by original retrieval order. -/
def specRank {α K : Type} [LinearOrder K] (sim : α → K) (pts : List α) :
    List (Nat × α × K) :=
  sortBy rankedBeforeB (enumFrom 0 (pts.map (fun p => (p, sim p))))

theorem mem_insertBy {α : Type} (before : α → α → Bool) (a c : α) :
    ∀ l, c ∈ insertBy before a l ↔ c = a ∨ c ∈ l := by
  intro l
  induction l with
  | nil => simp [insertBy]
  | cons b bs ih =>
    rw [insertBy]
    by_cases h : before a b = true
    · rw [if_pos h]; simp
    · rw [if_neg h]; simp [List.mem_cons, ih]; tauto

theorem insertBy_perm {α : Type} (before : α → α → Bool) (a : α) :
    ∀ l, (insertBy before a l).Perm (a :: l) := by
  intro l
  induction l with
  | nil => exact List.Perm.refl _
  | cons b bs ih =>
    rw [insertBy]
    by_cases h : before a b = true
    · rw [if_pos h]
    · rw [if_neg h]
      exact (List.Perm.cons b ih).trans (List.Perm.swap a b bs)

theorem sortBy_aux_perm {α : Type} (before : α → α → Bool) :
    ∀ (l acc : List α),
      (List.foldl (fun acc a => insertBy before a acc) acc l).Perm (acc ++ l) := by
  intro l
  induction l with
  | nil => intro acc; simp
  | cons a l ih =>
    intro acc
    refine ((ih (insertBy before a acc)).trans ?_)
    exact ((insertBy_perm before a acc).append_right l).trans List.perm_middle.symm

theorem sortBy_perm {α : Type} (before : α → α → Bool) (l : List α) :
    (sortBy before l).Perm l := by
  simpa using sortBy_aux_perm before l []

theorem insertBy_map {α β : Type} (f : β → α) (before : α → α → Bool) (a : β) :
    ∀ l, (insertBy (fun x y => before (f x) (f y)) a l).map f =
      insertBy before (f a) (l.map f) := by
  intro l
  induction l with
  | nil => rfl
  | cons b bs ih =>
    rw [insertBy, List.map_cons, insertBy]
    by_cases h : before (f a) (f b) = true
    · rw [if_pos h, if_pos h]; rfl
    · rw [if_neg h, if_neg h, List.map_cons, ih]

theorem sortBy_map_aux {α β : Type} (f : β → α) (before : α → α → Bool) :
    ∀ (l acc : List β),
      (List.foldl (fun acc a => insertBy (fun x y => before (f x) (f y)) a acc) acc l).map f =
      List.foldl (fun acc a => insertBy before a acc) (acc.map f) (l.map f) := by
  intro l
  induction l with
  | nil => intro acc; rfl
  | cons a l ih =>
    intro acc
    rw [List.foldl_cons, List.map_cons, List.foldl_cons, ih, insertBy_map]

theorem sortBy_map {α β : Type} (f : β → α) (before : α → α → Bool) (l : List β) :
    (sortBy (fun x y => before (f x) (f y)) l).map f = sortBy before (l.map f) := by
  unfold sortBy
  exact sortBy_map_aux f before l []

theorem enumFrom_map_snd {α : Type} : ∀ (l : List α) (i : Nat),
    (enumFrom i l).map Prod.snd = l := by
  intro l
  induction l with
  | nil => intro i; rfl
  | cons a l ih => intro i; rw [enumFrom, List.map_cons, ih]

theorem enumFrom_fst_ge {α : Type} : ∀ (l : List α) (i : Nat) (p : Nat × α),
    p ∈ enumFrom i l → i ≤ p.1 := by
  intro l
  induction l with
  | nil => intro i p hp; simp [enumFrom] at hp
  | cons a l ih =>
    intro i p hp
    rw [enumFrom] at hp
    rcases List.mem_cons.mp hp with hp | hp
    · subst hp; exact le_refl _
    · exact le_trans (Nat.le_succ i) (ih (i + 1) p hp)

theorem enumFrom_pairwise {α : Type} : ∀ (l : List α) (i : Nat),
    (enumFrom i l).Pairwise (fun x y => x.1 < y.1) := by
  intro l
  induction l with
  | nil => intro i; exact List.Pairwise.nil
  | cons a l ih =>
    intro i
    rw [enumFrom]
    exact List.Pairwise.cons
      (fun p hp => lt_of_lt_of_le (Nat.lt_succ_self i) (enumFrom_fst_ge l (i + 1) p hp))
      (ih (i + 1))

theorem insertBy_agree {α : Type} (b1 b2 : α → α → Bool) (a : α) :
    ∀ l, (∀ b ∈ l, b1 a b = b2 a b) → insertBy b1 a l = insertBy b2 a l := by
  intro l
  induction l with
  | nil => intro _; rfl
  | cons b bs ih =>
    intro h
    rw [insertBy, insertBy, h b (by simp)]
    by_cases hb : b2 a b = true
    · rw [if_pos hb, if_pos hb]
    · rw [if_neg hb, if_neg hb, ih (fun u hu => h u (by simp [hu]))]

theorem rankedBeforeB_eq_simBefore {α K : Type} [LinearOrder K]
    (x y : Nat × α × K) (h : y.1 < x.1) :
    rankedBeforeB x y = simBefore x.2 y.2 := by
  unfold rankedBeforeB simBefore
  have : decide (x.1 < y.1) = false := by
    simp only [decide_eq_false_iff_not]
    omega
  rw [this, Bool.and_false, Bool.or_false]

theorem sortBy_enum_agree {α K : Type} [LinearOrder K] :
    ∀ (l : List (Nat × α × K)) (acc : List (Nat × α × K)),
      (∀ x ∈ l, ∀ y ∈ acc, y.1 < x.1) →
      l.Pairwise (fun x y => x.1 < y.1) →
      List.foldl (fun acc a => insertBy (fun x y => simBefore x.2 y.2) a acc) acc l =
      List.foldl (fun acc a => insertBy rankedBeforeB a acc) acc l := by
  intro l
  induction l with
  | nil => intro acc _ _; rfl
  | cons a l ih =>
    intro acc hlt hpw
    rw [List.foldl_cons, List.foldl_cons]
    have hstep : insertBy (fun x y => simBefore x.2 y.2) a acc =
        insertBy rankedBeforeB a acc :=
      insertBy_agree _ _ a acc
        (fun b hb => ((rankedBeforeB_eq_simBefore a b (hlt a (by simp) b hb)).symm))
    rw [hstep]
    refine ih (insertBy rankedBeforeB a acc) ?_ (List.Pairwise.of_cons hpw)
    intro x hx y hy
    rcases (mem_insertBy rankedBeforeB a y _).mp hy with hy | hy
    · subst hy
      exact (List.pairwise_cons.mp hpw).1 x hx
    · exact hlt x (by simp [hx]) y hy

theorem specRank_map_snd {α K : Type} [LinearOrder K] (sim : α → K) (pts : List α) :
    (specRank sim pts).map Prod.snd =
      sortBy simBefore (pts.map (fun p => (p, sim p))) := by
  unfold specRank
  have hagree : sortBy (fun x y : Nat × α × K => simBefore x.2 y.2)
        (enumFrom 0 (pts.map (fun p => (p, sim p)))) =
      sortBy rankedBeforeB (enumFrom 0 (pts.map (fun p => (p, sim p)))) :=
    sortBy_enum_agree _ [] (by intro x _ y hy; simp at hy) (enumFrom_pairwise _ 0)
  rw [← hagree, sortBy_map Prod.snd simBefore, enumFrom_map_snd]

theorem pairwise_insertBy {α : Type} {le : α → α → Prop} (before : α → α → Bool)
    (htr : ∀ x y z, le x y → le y z → le x z)
    (hr : ∀ x y, before x y = true → le x y)
    (hc : ∀ x y, before x y = false → le y x) :
    ∀ (l : List α) (a : α), l.Pairwise le → (insertBy before a l).Pairwise le := by
  intro l
  induction l with
  | nil => intro a _; simp [insertBy]
  | cons b bs ih =>
    intro a h
    obtain ⟨hb, hbs⟩ := List.pairwise_cons.mp h
    rw [insertBy]
    by_cases hab : before a b = true
    · rw [if_pos hab]
      refine List.Pairwise.cons ?_ h
      intro y hy
      rcases List.mem_cons.mp hy with hy | hy
      · rw [hy]; exact hr a b hab
      · exact htr a b y (hr a b hab) (hb y hy)
    · rw [if_neg hab]
      refine List.Pairwise.cons ?_ (ih a hbs)
      intro y hy
      rcases (mem_insertBy before a y bs).mp hy with hy | hy
      · rw [hy]; exact hc a b (by simpa using hab)
      · exact hb y hy

theorem pairwise_sortBy_aux {α : Type} {le : α → α → Prop} (before : α → α → Bool)
    (htr : ∀ x y z, le x y → le y z → le x z)
    (hr : ∀ x y, before x y = true → le x y)
    (hc : ∀ x y, before x y = false → le y x) :
    ∀ (l acc : List α), acc.Pairwise le →
      (List.foldl (fun acc a => insertBy before a acc) acc l).Pairwise le := by
  intro l
  induction l with
  | nil => intro acc h; exact h
  | cons a l ih =>
    intro acc h
    rw [List.foldl_cons]
    exact ih _ (pairwise_insertBy before htr hr hc acc a h)

theorem rankedLe_trans {α K : Type} [LinearOrder K] (x y z : Nat × α × K)
    (h1 : rankedLe x y) (h2 : rankedLe y z) : rankedLe x z := by
  unfold rankedLe at h1 h2 ⊢
  rcases h1 with h1 | ⟨h1e, h1i⟩
  · rcases h2 with h2 | ⟨h2e, h2i⟩
    · exact Or.inl (lt_trans h2 h1)
    · exact Or.inl (h2e ▸ h1)
  · rcases h2 with h2 | ⟨h2e, h2i⟩
    · exact Or.inl (h1e ▸ h2)
    · exact Or.inr ⟨h1e.trans h2e, le_trans h1i h2i⟩

theorem rankedBeforeB_le {α K : Type} [LinearOrder K] (x y : Nat × α × K)
    (h : rankedBeforeB x y = true) : rankedLe x y := by
  unfold rankedBeforeB at h
  unfold rankedLe
  rcases Bool.or_eq_true_iff.mp h with h | h
  · exact Or.inl (of_decide_eq_true h)
  · obtain ⟨h1, h2⟩ := Bool.and_eq_true_iff.mp h
    exact Or.inr ⟨of_decide_eq_true h1, le_of_lt (of_decide_eq_true h2)⟩

theorem rankedBeforeB_not_le {α K : Type} [LinearOrder K] (x y : Nat × α × K)
    (h : rankedBeforeB x y = false) : rankedLe y x := by
  unfold rankedBeforeB at h
  unfold rankedLe
  rw [Bool.or_eq_false_iff, Bool.and_eq_false_iff] at h
  obtain ⟨h1, h2⟩ := h
  have h1' : ¬ y.2.2 < x.2.2 := of_decide_eq_false h1
  rcases lt_trichotomy x.2.2 y.2.2 with hlt | heq | hgt
  · exact Or.inl hlt
  · rcases h2 with h2 | h2
    · exact absurd heq (of_decide_eq_false h2)
    · exact Or.inr ⟨heq.symm, le_of_not_lt (of_decide_eq_false h2)⟩
  · exact absurd hgt h1'

theorem specRank_pairwise_le {α K : Type} [LinearOrder K] (sim : α → K)
    (pts : List α) : (specRank sim pts).Pairwise rankedLe := by
  unfold specRank sortBy
  exact pairwise_sortBy_aux rankedBeforeB rankedLe_trans rankedBeforeB_le
    rankedBeforeB_not_le _ [] List.Pairwise.nil

theorem specRank_pairwise {α K : Type} [LinearOrder K] (sim : α → K)
    (pts : List α) : (specRank sim pts).Pairwise rankedBefore := by
  have hperm : (specRank sim pts).Perm (enumFrom 0 (pts.map (fun p => (p, sim p)))) :=
    sortBy_perm _ _
  have hne : (specRank sim pts).Pairwise (fun x y => x.1 ≠ y.1) := by
    refine (List.Perm.pairwise_iff (fun h => Ne.symm h) hperm).mpr ?_
    exact (enumFrom_pairwise _ 0).imp (fun h => Nat.ne_of_lt h)
  refine ((specRank_pairwise_le sim pts).and hne).imp ?_
  intro x y hxy
  obtain ⟨hle, hne⟩ := hxy
  unfold rankedLe at hle
  unfold rankedBefore
  rcases hle with h | ⟨he, hi⟩
  · exact Or.inl h
  · exact Or.inr ⟨he, lt_of_le_of_ne hi hne⟩

/-- C3: after local re-ranking, the evidence selected by `ask` is
exactly the first `top_k` of the candidates sorted by locally recomputed
similarity in descending order with ties broken by original retrieval
order, i.e. the code's stable descending sort on the similarity
component coincides with the unique index-refined ranking; the
index-reported score does not occur in `rerank` at all. -/
theorem claim_C3 {α K : Type} [LinearOrder K] (sim : α → K) (pts : List α)
    (topk : Nat) :
    rerank sim pts topk = ((specRank sim pts).take topk).map (fun t => t.2.1) ∧
    (specRank sim pts).Pairwise rankedBefore ∧
    (specRank sim pts).Perm (enumFrom 0 (pts.map (fun p => (p, sim p)))) := by
  refine ⟨?_, specRank_pairwise sim pts, sortBy_perm _ _⟩
  show ((sortBy simBefore (pts.map (fun p => (p, sim p)))).take topk).map Prod.fst = _
  rw [← specRank_map_snd sim pts, ← List.map_take, List.map_map]
  rfl

/-- Witness for C3 at a concrete candidate list (keys `3, 1, 2`). -/
theorem claim_C3_witness :
    rerank (fun n : Nat => n) [3, 1, 2] 2 =
      ((specRank (fun n : Nat => n) [3, 1, 2]).take 2).map (fun t => t.2.1) :=
  (claim_C3 (fun n : Nat => n) [3, 1, 2] 2).1

/-! ### The `ask` pipeline after candidate fetch
(rag_service.py, lines 112-159) -/

/-- The payload attached to a stored point:
`{text, source, page, chunk_id, created_at}` (the fields `ask` reads). -/
structure RagPayload where
  text : Option String
  source : Option String
  chunk_id : Option Nat
deriving DecidableEq, Repr

/-- A candidate returned by the vector index: an optional bare vector, an
optional named-vector mapping, an optional payload and the index-reported
relevance score. -/
structure RagPoint (V K : Type) where
  vector : Option V
  vectors : List (String × V)
  payload : Option RagPayload
  score : Option K
deriving DecidableEq, Repr

/-- Vector resolution (rag_service.py, lines 122-124): use `p.vector`
when present, otherwise the first value of the named-vector mapping. -/
def resolveVec {V K : Type} (p : RagPoint V K) : Option V :=
  match p.vector with
  | some v => some v
  | none => (p.vectors.map Prod.snd).head?

/-- Line 125: the locally recomputed similarity of one candidate —
`cos_sim(qvec, pvec)` through the abstract `qsim`, or `0.0` when no
vector could be resolved. -/
def pointSim {V K : Type} [Zero K] (qsim : V → K) (p : RagPoint V K) : K :=
  match resolveVec p with
  | some v => qsim v
  | none => 0

/-- The fixed no-context answer (rag_service.py, line 115). -/
def NO_CONTEXT_ANSWER : String :=
  "No se encontró contexto relevante en la base vectorial."

/-- The prompt assembled for the generation service
(rag_service.py, lines 135-145): the f-string template followed by
`.strip()`. -/
def askPrompt (question context : String) : String :=
  String.mk (pstrip (String.toList
    ("\nEres un guía turístico experto de la ciudad de Córdoba (España).\nResponde en español de forma clara y EXCLUSIVAMENTE usando el CONTEXTO.\nSi la información no está en el contexto, dilo explícitamente.\n\nPREGUNTA:\n"
      ++ question ++ "\n\nCONTEXTO:\n" ++ context ++ "\n")))

/-- The observable outcome of `ask` (answer, sources, the selected
evidence, and whether the generation service was invoked). -/
structure AskResult (V K : Type) where
  answer : String
  sources : List (Option String)
  top : List (RagPoint V K)
  genCalled : Bool
deriving DecidableEq, Repr

/-- `ask` from the moment the index returned its candidates
(rag_service.py, lines 112-159): the empty-candidates early return,
local re-ranking, snippet/source assembly and the generation call.
`qsim` is `cos_sim(qvec, ·)` and `gen` the generation service. -/
def ask {V K : Type} [LinearOrder K] [Zero K] (qsim : V → K)
    (pts : List (RagPoint V K)) (topk : Nat) (gen : String → String)
    (question : String) : AskResult V K :=
  if pts.isEmpty then ⟨NO_CONTEXT_ANSWER, [], [], false⟩
  else
    let top := rerank (pointSim qsim) pts topk
    let snippets := top.filterMap (fun p => p.payload.map (fun pl => pl.text.getD ""))
    let context := String.intercalate "\n\n---\n\n" snippets
    let sources := top.filterMap (fun p => p.payload.map (fun pl => pl.source))
    ⟨gen (askPrompt question context), sources, top, true⟩

/-- C6: whenever the vector index returns zero candidates, `ask` answers
with the fixed no-context message, reports an empty source list, and the
text-generation service is not called — the outcome is moreover
independent of the generation function. -/
theorem claim_C6 {V K : Type} [LinearOrder K] [Zero K] (qsim : V → K)
    (pts : List (RagPoint V K)) (topk : Nat) (gen gen2 : String → String)
    (question : String) (h : pts = []) :
    ask qsim pts topk gen question =
      ⟨NO_CONTEXT_ANSWER, [], [], false⟩ ∧
    (ask qsim pts topk gen question).answer = NO_CONTEXT_ANSWER ∧
    (ask qsim pts topk gen question).sources = [] ∧
    (ask qsim pts topk gen question).genCalled = false ∧
    ask qsim pts topk gen question = ask qsim pts topk gen2 question := by
  subst h
  exact ⟨rfl, rfl, rfl, rfl, rfl⟩

/-- Witness for C6: a concrete empty candidate list. -/
theorem claim_C6_witness :
    ask (fun (_ : Unit) => (0 : Int)) [] 5 (fun _ => "генерация") "pregunta sin contexto" =
      ⟨NO_CONTEXT_ANSWER, [], [], false⟩ ∧
    (ask (fun (_ : Unit) => (0 : Int)) [] 5 (fun _ => "генерация") "pregunta sin contexto").answer =
      NO_CONTEXT_ANSWER ∧
    (ask (fun (_ : Unit) => (0 : Int)) [] 5 (fun _ => "генерация") "pregunta sin contexto").sources = [] ∧
    (ask (fun (_ : Unit) => (0 : Int)) [] 5 (fun _ => "генерация") "pregunta sin contexto").genCalled = false ∧
    ask (fun (_ : Unit) => (0 : Int)) [] 5 (fun _ => "генерация") "pregunta sin contexto" =
      ask (fun (_ : Unit) => (0 : Int)) [] 5 (fun _ => "otra") "pregunta sin contexto" :=
  claim_C6 (fun _ => 0) [] 5 (fun _ => "генерация") (fun _ => "otra") "pregunta sin contexto" rfl

/-! ### Claim C5: `cos_sim` (rag_service.py, lines 49-54)

numpy float arithmetic is modelled over the reals. -/

/-- `np.dot(a, b)`. -/
noncomputable def npDot {n : Nat} (a b : Fin n → ℝ) : ℝ := ∑ i, a i * b i

/-- `np.linalg.norm(a)` — the Euclidean norm. -/
noncomputable def npNorm {n : Nat} (a : Fin n → ℝ) : ℝ :=
  Real.sqrt (∑ i, a i ^ 2)

/-- `cos_sim(a, b)`: `0.0` when either norm is zero, otherwise
`dot(a, b) / (‖a‖ * ‖b‖)`. -/
noncomputable def cos_sim {n : Nat} (a b : Fin n → ℝ) : ℝ :=
  if npNorm a = 0 ∨ npNorm b = 0 then 0
  else npDot a b / (npNorm a * npNorm b)

theorem npDot_comm {n : Nat} (a b : Fin n → ℝ) : npDot a b = npDot b a := by
  unfold npDot
  exact Finset.sum_congr rfl (fun i _ => mul_comm (a i) (b i))

theorem npNorm_nonneg {n : Nat} (a : Fin n → ℝ) : 0 ≤ npNorm a :=
  Real.sqrt_nonneg _

theorem npDot_abs_le {n : Nat} (a b : Fin n → ℝ) :
    |npDot a b| ≤ npNorm a * npNorm b := by
  unfold npDot npNorm
  have hcs : (∑ i, a i * b i) ^ 2 ≤ (∑ i, (a i) ^ 2) * (∑ i, (b i) ^ 2) :=
    Finset.sum_mul_sq_le_sq_mul_sq Finset.univ a b
  have hsq : Real.sqrt ((∑ i, a i * b i) ^ 2) ≤
      Real.sqrt ((∑ i, (a i) ^ 2) * (∑ i, (b i) ^ 2)) :=
    Real.sqrt_le_sqrt hcs
  rw [Real.sqrt_sq_eq_abs] at hsq
  rw [← Real.sqrt_mul (Finset.sum_nonneg (fun i _ => sq_nonneg (a i)))]
  exact hsq

/-- C5 (counterexample): the claim's "cos_sim(a, b) = 0 exactly when
either vector's norm is 0" is false — the orthogonal unit vectors
`(1, 0)` and `(0, 1)` have nonzero norms yet similarity 0. -/
theorem claim_C5_counterexample :
    cos_sim ![(1 : ℝ), 0] ![(0 : ℝ), 1] = 0 ∧
    npNorm ![(1 : ℝ), 0] ≠ 0 ∧ npNorm ![(0 : ℝ), 1] ≠ 0 := by
  have hdot : npDot ![(1 : ℝ), 0] ![(0 : ℝ), 1] = 0 := by
    unfold npDot
    rw [Fin.sum_univ_two]
    norm_num
  have hna : npNorm ![(1 : ℝ), 0] = 1 := by
    unfold npNorm
    rw [Fin.sum_univ_two]
    norm_num
  have hnb : npNorm ![(0 : ℝ), 1] = 1 := by
    unfold npNorm
    rw [Fin.sum_univ_two]
    norm_num
  refine ⟨?_, by rw [hna]; norm_num, by rw [hnb]; norm_num⟩
  unfold cos_sim
  rw [hdot, hna, hnb]
  norm_num

/-- C5 (amended): `cos_sim` is symmetric, bounded in `[-1, 1]`, equals
`dot(a,b) / (‖a‖‖b‖)` whenever both norms are nonzero, and equals 0
whenever either norm is 0 (so the division is never executed with a zero
denominator) — but it can also be 0 for orthogonal nonzero vectors. -/
theorem claim_C5 {n : Nat} (a b : Fin n → ℝ) :
    cos_sim a b = cos_sim b a ∧
    (-1 ≤ cos_sim a b ∧ cos_sim a b ≤ 1) ∧
    (npNorm a = 0 ∨ npNorm b = 0 → cos_sim a b = 0) ∧
    (npNorm a ≠ 0 ∧ npNorm b ≠ 0 →
      cos_sim a b = npDot a b / (npNorm a * npNorm b)) := by
  refine ⟨?_, ?_, ?_, ?_⟩
  · unfold cos_sim
    by_cases h : npNorm a = 0 ∨ npNorm b = 0
    · rw [if_pos h, if_pos h.symm]
    · rw [if_neg h, if_neg (fun hh => h hh.symm), npDot_comm,
        mul_comm (npNorm a) (npNorm b)]
  · unfold cos_sim
    by_cases h : npNorm a = 0 ∨ npNorm b = 0
    · rw [if_pos h]; norm_num
    · rw [if_neg h]
      push_neg at h
      have hpa : 0 < npNorm a := lt_of_le_of_ne (npNorm_nonneg a) (Ne.symm h.1)
      have hpb : 0 < npNorm b := lt_of_le_of_ne (npNorm_nonneg b) (Ne.symm h.2)
      have hpos : 0 < npNorm a * npNorm b := mul_pos hpa hpb
      have habs : |npDot a b / (npNorm a * npNorm b)| ≤ 1 := by
        rw [abs_div, abs_of_pos hpos]
        exact (div_le_one hpos).mpr (npDot_abs_le a b)
      exact abs_le.mp habs
  · intro h
    unfold cos_sim
    rw [if_pos h]
  · intro h
    unfold cos_sim
    rw [if_neg (by tauto)]

/-- Witness for C5: the nonzero-norm division formula at `(1,0)`,
`(3,4)`. -/
theorem claim_C5_witness :
    cos_sim ![(1 : ℝ), 0] ![(3 : ℝ), 4] =
      npDot ![(1 : ℝ), 0] ![(3 : ℝ), 4] /
        (npNorm ![(1 : ℝ), 0] * npNorm ![(3 : ℝ), 4]) := by
  refine (claim_C5 ![(1 : ℝ), 0] ![(3 : ℝ), 4]).2.2.2 ⟨?_, ?_⟩
  · unfold npNorm
    rw [Fin.sum_univ_two]
    norm_num
  · unfold npNorm
    rw [Fin.sum_univ_two]
    norm_num

/-! ### Claim C9: deterministic record ids
(scripts/upsert_chunks.py, lines 21-23 and 43-58) -/

/-- `det_uuid(text) = str(uuid.uuid5(uuid.NAMESPACE_URL, text.strip()))`.
`uuid.uuid5` is a SHA-1-based pure function of its name argument; it is
modelled as an arbitrary deterministic function `uuid5`. -/
def det_uuid (uuid5 : List Char → String) (text : List Char) : String :=
  uuid5 (pstrip text)

/-- The vector index's `upsert` for a single point: a record with the
same id is overwritten in place, otherwise the point is appended. -/
def upsertPoint {π : Type} (store : List (String × π)) (pid : String)
    (payload : π) : List (String × π) :=
  if store.any (fun e => e.1 = pid) then
    store.map (fun e => if e.1 = pid then (pid, payload) else e)
  else store ++ [(pid, payload)]

/-- C9: the record id is a deterministic function of the chunk's trimmed
text alone — texts equal after `strip()` get the same id — and upserting
the same text twice into an empty collection leaves exactly one record. -/
theorem claim_C9 {π : Type} (uuid5 : List Char → String) (t1 t2 : List Char)
    (h : pstrip t1 = pstrip t2) (p1 p2 : π) :
    det_uuid uuid5 t1 = det_uuid uuid5 t2 ∧
    (upsertPoint (upsertPoint [] (det_uuid uuid5 t1) p1)
      (det_uuid uuid5 t2) p2).length = 1 := by
  have hid : det_uuid uuid5 t1 = det_uuid uuid5 t2 := by
    unfold det_uuid
    rw [h]
  refine ⟨hid, ?_⟩
  rw [← hid]
  simp [upsertPoint]

/-- Witness for C9: `"  hola "` and `"hola"` share a trimmed text. -/
theorem claim_C9_witness :
    det_uuid String.mk (pystr "  hola ") = det_uuid String.mk (pystr "hola") ∧
    (upsertPoint (upsertPoint ([] : List (String × Nat))
        (det_uuid String.mk (pystr "  hola ")) 1)
      (det_uuid String.mk (pystr "hola")) 2).length = 1 :=
  claim_C9 String.mk (pystr "  hola ") (pystr "hola") (by decide) 1 2

/-! ### Claim C10: the fixed-window chunker `chunk_text`
(rag_service.py, lines 57-68) -/

/-- The `while start < len(text)` loop of `chunk_text`, with explicit
fuel (the Python loop diverges for `overlap ≥ max_chars`, so the model
carries fuel; `chunk_text` supplies enough for the terminating regime). -/
def chunkLoop (text : List Char) (maxChars overlap : Nat) :
    Nat → Nat → List (List Char) → List (List Char)
  | 0, _, acc => acc.reverse
  | fuel + 1, start, acc =>
    if start < text.length then
      if min text.length (start + maxChars) = text.length then
        (slice text start (min text.length (start + maxChars)) :: acc).reverse
      else
        chunkLoop text maxChars overlap fuel
          (min text.length (start + maxChars) - overlap)
          (slice text start (min text.length (start + maxChars)) :: acc)
    else acc.reverse

/-- `chunk_text(text, max_chars, overlap)` (rag_service.py, lines
57-68): strip, return `[text]`/`[]` when the text fits, otherwise run
the fixed-window loop (`start` never goes negative: `max(0, end -
overlap)` is ℕ-subtraction here). -/
def chunk_text (t : List Char) (maxChars overlap : Nat) : List (List Char) :=
  if (pstrip t).length ≤ maxChars then (if pstrip t ≠ [] then [pstrip t] else [])
  else chunkLoop (pstrip t) maxChars overlap ((pstrip t).length + 1) 0 []

theorem chunkLoop_fuel_agnostic (text : List Char) (maxChars overlap : Nat)
    (hov : overlap < maxChars) :
    ∀ (f1 : Nat) (f2 start : Nat) (acc : List (List Char)),
      text.length - start < f1 → text.length - start < f2 →
      chunkLoop text maxChars overlap f1 start acc =
        chunkLoop text maxChars overlap f2 start acc := by
  intro f1
  induction f1 with
  | zero => intro f2 start acc h1 _; omega
  | succ f1 ih =>
    intro f2 start acc h1 h2
    cases f2 with
    | zero => omega
    | succ f2 =>
      rw [chunkLoop, chunkLoop]
      by_cases hst : start < text.length
      · rw [if_pos hst, if_pos hst]
        by_cases hend : min text.length (start + maxChars) = text.length
        · rw [if_pos hend, if_pos hend]
        · rw [if_neg hend, if_neg hend]
          have hlt : start + maxChars < text.length := by omega
          have hmin : min text.length (start + maxChars) = start + maxChars := by omega
          rw [hmin]
          exact ih f2 (start + maxChars - overlap) _ (by omega) (by omega)
      · rw [if_neg hst, if_neg hst]

theorem chunkLoop_length_le (text : List Char) (maxChars overlap : Nat) :
    ∀ (fuel start : Nat) (acc : List (List Char)),
      (∀ c ∈ acc, c.length ≤ maxChars) →
      ∀ c ∈ chunkLoop text maxChars overlap fuel start acc, c.length ≤ maxChars := by
  intro fuel
  induction fuel with
  | zero =>
    intro start acc hacc c hc
    rw [chunkLoop] at hc
    exact hacc c (List.mem_reverse.mp hc)
  | succ fuel ih =>
    intro start acc hacc c hc
    rw [chunkLoop] at hc
    have hpiece : (slice text start (min text.length (start + maxChars))).length ≤
        maxChars := by
      refine le_trans (slice_length_le _ _ _) ?_
      omega
    by_cases hst : start < text.length
    · rw [if_pos hst] at hc
      by_cases hend : min text.length (start + maxChars) = text.length
      · rw [if_pos hend] at hc
        rcases List.mem_cons.mp (List.mem_reverse.mp hc) with hc | hc
        · rw [hc]; exact hpiece
        · exact hacc c hc
      · rw [if_neg hend] at hc
        refine ih _ _ ?_ c hc
        intro u hu
        rcases List.mem_cons.mp hu with hu | hu
        · rw [hu]; exact hpiece
        · exact hacc u hu
    · rw [if_neg hst] at hc
      exact hacc c (List.mem_reverse.mp hc)

theorem chunkLoop_last (text : List Char) (maxChars overlap : Nat)
    (hov : overlap < maxChars) :
    ∀ (fuel start : Nat) (acc : List (List Char)),
      text.length - start < fuel → start < text.length →
      ∃ st2, (chunkLoop text maxChars overlap fuel start acc).getLast? =
          some (slice text st2 text.length) ∧ st2 < text.length := by
  intro fuel
  induction fuel with
  | zero => intro start acc h1 h2; omega
  | succ fuel ih =>
    intro start acc h1 h2
    rw [chunkLoop, if_pos h2]
    by_cases hend : min text.length (start + maxChars) = text.length
    · rw [if_pos hend]
      refine ⟨start, ?_, h2⟩
      rw [List.getLast?_reverse]
      rw [hend]
      rfl
    · rw [if_neg hend]
      have hlt : start + maxChars < text.length := by omega
      have hmin : min text.length (start + maxChars) = start + maxChars := by omega
      rw [hmin]
      exact ih (start + maxChars - overlap) _ (by omega) (by omega)

/-- C10: for `0 ≤ overlap < max_chars`, `chunk_text` terminates (the
result is independent of any sufficient fuel), returns `[]` exactly when
the stripped input is empty, returns the singleton stripped input when it
fits in `max_chars`, and otherwise produces pieces of length ≤
`max_chars` whose last piece ends exactly at the end of the text. -/
theorem claim_C10 (t : List Char) (maxChars overlap : Nat)
    (hov : overlap < maxChars) :
    (chunk_text t maxChars overlap = [] ↔ pstrip t = []) ∧
    (pstrip t ≠ [] → (pstrip t).length ≤ maxChars →
      chunk_text t maxChars overlap = [pstrip t]) ∧
    (∀ c ∈ chunk_text t maxChars overlap, c.length ≤ maxChars) ∧
    (maxChars < (pstrip t).length →
      ∃ st2, (chunk_text t maxChars overlap).getLast? =
        some (slice (pstrip t) st2 (pstrip t).length) ∧ st2 < (pstrip t).length) ∧
    (∀ fuel, (pstrip t).length < fuel →
      chunkLoop (pstrip t) maxChars overlap fuel 0 [] =
        chunkLoop (pstrip t) maxChars overlap ((pstrip t).length + 1) 0 []) := by
  refine ⟨?_, ?_, ?_, ?_, ?_⟩
  · unfold chunk_text
    by_cases hfit : (pstrip t).length ≤ maxChars
    · rw [if_pos hfit]
      by_cases hne : pstrip t ≠ []
      · rw [if_pos hne]
        simp [hne]
      · rw [if_neg hne]
        push_neg at hne
        simp [hne]
    · rw [if_neg hfit]
      constructor
      · intro hcl
        obtain ⟨st2, hlast, _⟩ := chunkLoop_last (pstrip t) maxChars overlap hov
          ((pstrip t).length + 1) 0 [] (by omega) (by omega)
        rw [hcl] at hlast
        simp at hlast
      · intro hempty
        rw [hempty] at hfit
        simp at hfit
  · intro hne hfit
    unfold chunk_text
    rw [if_pos hfit, if_pos hne]
  · intro c hc
    unfold chunk_text at hc
    by_cases hfit : (pstrip t).length ≤ maxChars
    · rw [if_pos hfit] at hc
      by_cases hne : pstrip t ≠ []
      · rw [if_pos hne] at hc
        rcases List.mem_singleton.mp hc with hc
        rw [hc]
        exact hfit
      · rw [if_neg hne] at hc
        simp at hc
    · rw [if_neg hfit] at hc
      exact chunkLoop_length_le (pstrip t) maxChars overlap _ 0 [] (by simp) c hc
  · intro hbig
    unfold chunk_text
    rw [if_neg (by omega)]
    exact chunkLoop_last (pstrip t) maxChars overlap hov _ 0 [] (by omega) (by omega)
  · intro fuel hfuel
    exact chunkLoop_fuel_agnostic (pstrip t) maxChars overlap hov fuel _ 0 []
      (by omega) (by omega)

/-- Witness for C10 at the 12-character text `"abcdefghijkl"` with
`max_chars = 5`, `overlap = 2`. -/
theorem claim_C10_witness :
    (chunk_text (pystr "abcdefghijkl") 5 2 = [] ↔ pstrip (pystr "abcdefghijkl") = []) ∧
    (pstrip (pystr "abcdefghijkl") ≠ [] → (pstrip (pystr "abcdefghijkl")).length ≤ 5 →
      chunk_text (pystr "abcdefghijkl") 5 2 = [pstrip (pystr "abcdefghijkl")]) ∧
    (∀ c ∈ chunk_text (pystr "abcdefghijkl") 5 2, c.length ≤ 5) ∧
    (5 < (pstrip (pystr "abcdefghijkl")).length →
      ∃ st2, (chunk_text (pystr "abcdefghijkl") 5 2).getLast? =
        some (slice (pstrip (pystr "abcdefghijkl")) st2
          (pstrip (pystr "abcdefghijkl")).length) ∧
        st2 < (pstrip (pystr "abcdefghijkl")).length) ∧
    (∀ fuel, (pstrip (pystr "abcdefghijkl")).length < fuel →
      chunkLoop (pstrip (pystr "abcdefghijkl")) 5 2 fuel 0 [] =
        chunkLoop (pystr "abcdefghijkl") 5 2 ((pstrip (pystr "abcdefghijkl")).length + 1) 0 []) :=
  claim_C10 (pystr "abcdefghijkl") 5 2 (by decide)

/-! ### Header detection (chunking.py, lines 18-19 and 39-47)

`HDR_RE = r"^(\d+\.\d+)*\s*.+|[A-ZÁÉÍÓÚÜÑ0-9 ,.\-:%()]+$"`, matched with
`re.match` (anchored at position 0, `$` also matches before one trailing
newline, `.` excludes newlines). -/

/-- `str.lower()` restricted to the alphabet this repository handles
(ASCII letters plus the Spanish uppercase vowels/Ñ/Ü of `HDR_RE`). -/
def pyLower (c : Char) : Char :=
  if 'A' ≤ c ∧ c ≤ 'Z' then Char.ofNat (c.toNat + 32)
  else if c = 'Á' then 'á' else if c = 'É' then 'é' else if c = 'Í' then 'í'
  else if c = 'Ó' then 'ó' else if c = 'Ú' then 'ú' else if c = 'Ü' then 'ü'
  else if c = 'Ñ' then 'ñ' else c

/-- The character class `[A-ZÁÉÍÓÚÜÑ0-9 ,.\-:%()]` of `HDR_RE`'s second
alternative. -/
def hdrCharSet (c : Char) : Bool :=
  ('A' ≤ c && c ≤ 'Z') || c = 'Á' || c = 'É' || c = 'Í' || c = 'Ó' || c = 'Ú' ||
  c = 'Ü' || c = 'Ñ' || c.isDigit || c = ' ' || c = ',' || c = '.' || c = '-' ||
  c = ':' || c = '%' || c = '(' || c = ')'

/-- All remainders after consuming `\d+` (one or more digits, every
possible greedy/backtracked length). -/
def digitSplits : List Char → List (List Char)
  | [] => []
  | c :: cs => if c.isDigit then cs :: digitSplits cs else []

/-- All remainders after consuming one `(\d+\.\d+)` group. -/
def grpStep (s : List Char) : List (List Char) :=
  (digitSplits s).flatMap (fun r =>
    match r with
    | '.' :: r2 => digitSplits r2
    | _ => [])

/-- All remainders after `(\d+\.\d+)*` (zero or more groups); each group
consumes ≥ 3 characters, so `s.length` is enough fuel. -/
def grpRemAux : Nat → List Char → List (List Char)
  | 0, s => [s]
  | fuel + 1, s => s :: (grpStep s).flatMap (grpRemAux fuel)

/-- Remainders of `s` after `(\d+\.\d+)*`. -/
def grpRemainders (s : List Char) : List (List Char) := grpRemAux s.length s

/-- All remainders after `\s*` (drop 0 up to the whole leading
whitespace run). -/
def wsDrops : List Char → List (List Char)
  | [] => [[]]
  | c :: cs => if isWs c then (c :: cs) :: wsDrops cs else [c :: cs]

/-- `HDR_RE`'s first alternative `^(\d+\.\d+)*\s*.+`: after some group
parse and some prefix of the whitespace run, at least one non-newline
character must follow. -/
def hdrBranch1 (s : List Char) : Bool :=
  (grpRemainders s).any (fun r =>
    (wsDrops r).any (fun r2 =>
      match r2.head? with
      | some c => c != '\n'
      | none => false))

/-- `HDR_RE`'s second alternative `[A-ZÁÉÍÓÚÜÑ0-9 ,.\-:%()]+$`: the whole
string (or the whole string minus one trailing newline) is a nonempty run
of the class. -/
def hdrBranch2 (s : List Char) : Bool :=
  (!s.isEmpty && s.all hdrCharSet) ||
  (match s.getLast? with
   | some c => c == '\n' && !s.dropLast.isEmpty && s.dropLast.all hdrCharSet
   | none => false)

/-- `bool(HDR_RE.match(line))`. -/
def hdrMatch (s : List Char) : Bool := hdrBranch1 s || hdrBranch2 s

/-- `_is_header(line)` (chunking.py, lines 39-47): strip, reject short
lines, reject all-lower-case digit-free lines, then match `HDR_RE`.
(The leading underscore of the Python name is dropped.) -/
def is_header (line : List Char) : Bool :=
  if (pstrip line).length ≤ 3 then false
  else if (pstrip line).map pyLower = pstrip line ∧
      ¬ (pstrip line).any Char.isDigit = true then false
  else hdrMatch (pstrip line)

/-- Modelled from the spec: "it matches a heading pattern (a numeric
"x.y" prefix, or an all-caps/punctuation-heavy line)" — a `\d+\.\d+`
prefix, or a nonempty line made only of the caps/digits/punctuation
class. -/
def specHeadingPattern (l : List Char) : Bool :=
  !(grpStep l).isEmpty || (!l.isEmpty && l.all hdrCharSet)

/-! ### Sentence splitting (chunking.py, lines 19 and 50-65)

`SENT_RE = r"(?<=\.|\!|\?)\s+(?=[A-ZÁÉÍÓÚÜÑ0-9])"` with `re.MULTILINE`
(the flag only affects `^`/`$`, which do not occur). -/

/-- The look-behind class `\.|\!|\?`. -/
def isPunct (c : Char) : Bool := c = '.' || c = '!' || c = '?'

/-- The look-ahead class `[A-ZÁÉÍÓÚÜÑ0-9]`. -/
def isSentStart (c : Char) : Bool :=
  ('A' ≤ c && c ≤ 'Z') || c = 'Á' || c = 'É' || c = 'Í' || c = 'Ó' || c = 'Ú' ||
  c = 'Ü' || c = 'Ñ' || c.isDigit

/-- `SENT_RE.split`: scan left to right; a whitespace run preceded by
sentence punctuation and followed by a capital/digit is a separator. -/
def sentSplitAux : Nat → List Char → List Char → Option Char → List (List Char)
  | 0, rest, cur, _ => [cur.reverse ++ rest]
  | _ + 1, [], cur, _ => [cur.reverse]
  | fuel + 1, c :: rest, cur, prev =>
    if isWs c && (match prev with | some p => isPunct p | none => false) &&
        (match ((c :: rest).dropWhile isWs).head? with
         | some c2 => isSentStart c2
         | none => false) then
      cur.reverse :: sentSplitAux fuel ((c :: rest).dropWhile isWs) [] none
    else sentSplitAux fuel rest (c :: cur) (some c)

/-- `SENT_RE.split(paragraph)`. -/
def sentSplit (p : List Char) : List (List Char) :=
  sentSplitAux (p.length + 1) p [] none

/-- The bullet-merging loop of `_sentences` (chunking.py, lines 56-64). -/
def bulletFold (out : List (List Char)) (s : List Char) : List (List Char) :=
  if pstrip s = [] then out
  else if ((pstrip s).head? = some '•' ∨ (pstrip s).head? = some '-') ∧ out ≠ [] then
    out.dropLast ++ [(out.getLast?.getD []) ++ ' ' :: pstrip s]
  else out ++ [pstrip s]

/-- `_sentences(paragraph)` (chunking.py, lines 50-65): headers stay
atomic, other paragraphs are split on `SENT_RE` with bullet fragments
merged onto the previous sentence. -/
def sentences (p : List Char) : List (List Char) :=
  if is_header p = true then [p]
  else (sentSplit p).foldl bulletFold []

/-! ### Paragraph splitting (chunking.py, lines 33-36) -/

/-- Replace every maximal whitespace run by a single space
(`re.sub(r"\s+", " ", ·)`). -/
def collapseWsAux : Nat → List Char → List Char
  | 0, s => s
  | _ + 1, [] => []
  | fuel + 1, c :: cs =>
    if isWs c then ' ' :: collapseWsAux fuel (cs.dropWhile isWs)
    else c :: collapseWsAux fuel cs

/-- `re.sub(r"\s+", " ", s)`. -/
def collapseWs (s : List Char) : List Char := collapseWsAux (s.length + 1) s

/-- The index of the last `'\n'` in a list, if any. -/
def lastNl (run : List Char) : Option Nat :=
  match run.reverse.findIdx? (fun c => c == '\n') with
  | some j => some (run.length - 1 - j)
  | none => none

/-- `re.split(r"\n\s*\n", text)`: a separator is a newline, a greedy
(backtracked) whitespace run, and a final newline — i.e. at a `'\n'`,
the run extends to the last `'\n'` inside the maximal whitespace run
that follows. -/
def paraSplitAux : Nat → List Char → List Char → List (List Char)
  | 0, rest, cur => [cur.reverse ++ rest]
  | _ + 1, [], cur => [cur.reverse]
  | fuel + 1, c :: rest, cur =>
    if c = '\n' then
      match lastNl (rest.takeWhile isWs) with
      | some k => cur.reverse :: paraSplitAux fuel (rest.drop (k + 1)) []
      | none => paraSplitAux fuel rest (c :: cur)
    else paraSplitAux fuel rest (c :: cur)

/-- `re.split(r"\n\s*\n", text)`. -/
def paraSplit (text : List Char) : List (List Char) :=
  paraSplitAux (text.length + 1) text []

/-- `_split_paragraphs(text)` (chunking.py, lines 33-36): split on
blank-line separators, strip and collapse whitespace, drop empties. -/
def split_paragraphs (text : List Char) : List (List Char) :=
  ((paraSplit text).map (fun p => collapseWs (pstrip p))).filter
    (fun p => !p.isEmpty)

/-- The document → chunks pipeline of `main` (chunking.py, lines
146-153): paragraphs, then sentences, then greedy packing. -/
def segment (text : List Char) (chunkSize overlap : Nat) :
    Except String (List Chunk) :=
  packSentences ((split_paragraphs text).flatMap sentences) chunkSize overlap

/-! ### Claim C7: `_is_header` -/

theorem dropWhile_head_not {p : Char → Bool} :
    ∀ (l : List Char) (c : Char), (l.dropWhile p).head? = some c → p c = false := by
  intro l
  induction l with
  | nil => intro c h; simp at h
  | cons a l ih =>
    intro c h
    rw [List.dropWhile_cons] at h
    by_cases ha : p a = true
    · rw [if_pos ha] at h
      exact ih c h
    · rw [if_neg ha] at h
      simp at h
      rw [← h]
      simpa using ha

theorem mem_grpRemAux_self : ∀ (fuel : Nat) (s : List Char), s ∈ grpRemAux fuel s := by
  intro fuel s
  cases fuel with
  | zero => simp [grpRemAux]
  | succ fuel => rw [grpRemAux]; exact List.mem_cons_self _ _

theorem mem_wsDrops_self : ∀ l : List Char, l ∈ wsDrops l := by
  intro l
  cases l with
  | nil => simp [wsDrops]
  | cons c cs =>
    rw [wsDrops]
    by_cases h : isWs c = true
    · rw [if_pos h]; exact List.mem_cons_self _ _
    · rw [if_neg h]; exact List.mem_cons_self _ _

/-- `HDR_RE`'s first alternative matches any string whose first
character is not a newline — in particular any nonempty stripped line —
making the regex conjunct of `_is_header` vacuous. -/
theorem hdrMatch_of_head (l : List Char) (c : Char) (hc : l.head? = some c)
    (hnw : isWs c = false) : hdrMatch l = true := by
  unfold hdrMatch hdrBranch1
  refine Bool.or_eq_true_iff.mpr (Or.inl ?_)
  rw [List.any_eq_true]
  refine ⟨l, by unfold grpRemainders; exact mem_grpRemAux_self _ _, ?_⟩
  rw [List.any_eq_true]
  refine ⟨l, mem_wsDrops_self l, ?_⟩
  rw [hc]
  have : c ≠ '\n' := by
    intro hcn
    rw [hcn] at hnw
    simp [isWs] at hnw
  simpa using this

theorem pstrip_head_not_ws (l : List Char) (c : Char)
    (h : (pstrip l).head? = some c) : isWs c = false :=
  dropWhile_head_not (rstrip l) c h

/-- The exact classification `_is_header` implements. -/
theorem is_header_eq (line : List Char) :
    is_header line = true ↔
      (3 < (pstrip line).length ∧
        ((pstrip line).any Char.isDigit = true ∨
          (pstrip line).map pyLower ≠ pstrip line)) := by
  unfold is_header
  by_cases h1 : (pstrip line).length ≤ 3
  · rw [if_pos h1]
    constructor
    · intro h; simp at h
    · intro h; omega
  · rw [if_neg h1]
    by_cases h2 : (pstrip line).map pyLower = pstrip line ∧
        ¬ (pstrip line).any Char.isDigit = true
    · rw [if_pos h2]
      constructor
      · intro h; simp at h
      · intro h
        rcases h.2 with hd | hd
        · exact absurd hd h2.2
        · exact absurd h2.1 hd
    · rw [if_neg h2]
      have hne : pstrip line ≠ [] := by
        intro hh
        rw [hh] at h1
        simp at h1
      obtain ⟨c, hc⟩ : ∃ c, (pstrip line).head? = some c := by
        cases hh : (pstrip line).head? with
        | none => exact absurd (List.head?_eq_none_iff.mp hh) hne
        | some c => exact ⟨c, rfl⟩
      rw [hdrMatch_of_head (pstrip line) c hc (pstrip_head_not_ws line c hc)]
      constructor
      · intro _
        refine ⟨by omega, ?_⟩
        by_cases hd : (pstrip line).any Char.isDigit = true
        · exact Or.inl hd
        · refine Or.inr ?_
          intro heq
          exact h2 ⟨heq, hd⟩
      · intro _; rfl

/-- C7 (counterexample): `"Hola mundo"` satisfies the length and
case/digit conjuncts, does **not** match the spec's described heading
pattern (no `x.y` prefix, not an all-caps/punctuation line), yet
`_is_header` classifies it as a header — the regex conjunct is vacuous,
so the claimed three-way iff is false. -/
theorem claim_C7_counterexample :
    is_header (pystr "Hola mundo") = true ∧
    3 < (pstrip (pystr "Hola mundo")).length ∧
    ((pstrip (pystr "Hola mundo")).any Char.isDigit = true ∨
      (pstrip (pystr "Hola mundo")).map pyLower ≠ pstrip (pystr "Hola mundo")) ∧
    specHeadingPattern (pstrip (pystr "Hola mundo")) = false := by
  refine ⟨by decide, by decide, ?_, by decide⟩
  exact Or.inr (by decide)

/-- C7 (amended): `_is_header` classifies a line as a header **iff** its
trimmed length exceeds 3 and it contains a digit or is not entirely
lower-case — the heading-pattern conjunct is vacuous, because `HDR_RE`'s
first alternative `^(\d+\.\d+)*\s*.+` matches every nonempty stripped
line; and a header paragraph is emitted by `_sentences` as one atomic
sentence. -/
theorem claim_C7 (line p : List Char) :
    (is_header line = true ↔
      (3 < (pstrip line).length ∧
        ((pstrip line).any Char.isDigit = true ∨
          (pstrip line).map pyLower ≠ pstrip line))) ∧
    (is_header p = true → sentences p = [p]) := by
  refine ⟨is_header_eq line, ?_⟩
  intro h
  unfold sentences
  rw [if_pos h]

/-- Witness for C7 at the header line `"1.2 INTRODUCCIÓN"`. -/
theorem claim_C7_witness :
    (is_header (pystr "1.2 INTRODUCCIÓN") = true ↔
      (3 < (pstrip (pystr "1.2 INTRODUCCIÓN")).length ∧
        ((pstrip (pystr "1.2 INTRODUCCIÓN")).any Char.isDigit = true ∨
          (pstrip (pystr "1.2 INTRODUCCIÓN")).map pyLower ≠
            pstrip (pystr "1.2 INTRODUCCIÓN")))) ∧
    sentences (pystr "1.2 INTRODUCCIÓN") = [pystr "1.2 INTRODUCCIÓN"] :=
  ⟨(claim_C7 (pystr "1.2 INTRODUCCIÓN") (pystr "1.2 INTRODUCCIÓN")).1,
   (claim_C7 (pystr "1.2 INTRODUCCIÓN") (pystr "1.2 INTRODUCCIÓN")).2 (by decide)⟩

/-! ### Claim C1: overlap between adjacent chunks -/

/-- The spec's overlap scenario document. -/
def scenarioDoc : List Char :=
  pystr "Introducción.\n\nEste informe trata del sector audiovisual. Incluye datos de 2025."

theorem take_isPrefixOf : ∀ (l : List Char) (n : Nat), (l.take n).isPrefixOf l = true := by
  intro l
  induction l with
  | nil => intro n; cases n <;> rfl
  | cons a l ih =>
    intro n
    cases n with
    | zero => rfl
    | succ n =>
      show (a :: l.take n).isPrefixOf (a :: l) = true
      simp [List.isPrefixOf, ih]

theorem lt_ceil_div (n step j : Nat) (hstep : 0 < step) (h : j * step < n) :
    j < (n + step - 1) / step := by
  by_contra hc
  push_neg at hc
  have h2 := (Nat.div_le_iff_le_mul_add_pred hstep).mp hc
  have hmul : step * j = j * step := Nat.mul_comm step j
  omega

/-- C1 (counterexample): in the spec's own scenario (chunk_size = 50,
overlap = 10) the second chunk does not begin with any nonempty trailing
segment of the first chunk — the sentence that overflows is longer than
chunk_size, so it is hard-split starting from its first character, and
the buffer seeded by `flush(add_overlap=True)` is discarded. -/
theorem claim_C1_counterexample :
    segment scenarioDoc 50 10 = .ok
      [⟨0, pystr "Introducción."⟩,
       ⟨1, pystr "Este informe trata del sector audiovisual. Incluye"⟩,
       ⟨2, pystr "l. Incluye datos de 2025."⟩,
       ⟨3, pystr "s de 2025."⟩] ∧
    ((List.range 10).all (fun k =>
      !((lastChars (k + 1) (pystr "Introducción.")).isPrefixOf
        (pystr "Este informe trata del sector audiovisual. Incluye")))) = true :=
  ⟨rfl, rfl⟩

/-- C1 (amended): overlap between adjacent chunks survives only around
hard splits.  (i) Whenever a hard-split piece `j` is full
(`j*(chunk_size−overlap) + chunk_size ≤ len(s)`, with
`0 < overlap < chunk_size`), piece `j+1` exists and begins with exactly
the trailing `overlap` characters of piece `j`.  (ii) In the spec's
scenario (chunk_size = 50, overlap = 10) four chunks are produced; the
third begins with the last 10 characters of the second and the fourth
with the last 10 characters of the third, while the second does not
begin with any nonempty trailing segment of the first (the overlap
seeded by `flush` is overwritten in both overflow branches, so
non-hard-split neighbours share no overlap). -/
theorem claim_C1 :
    (∀ (s : List Char) (cs ov j : Nat), 0 < ov → ov < cs →
      j * (cs - ov) + cs ≤ s.length →
      ((hardPieces s cs ov)[j]? =
          some (slice s (j * (cs - ov)) (j * (cs - ov) + cs)) ∧
       (hardPieces s cs ov)[j + 1]? =
          some (slice s ((j + 1) * (cs - ov)) ((j + 1) * (cs - ov) + cs)) ∧
       (lastChars ov (slice s (j * (cs - ov)) (j * (cs - ov) + cs))).isPrefixOf
          (slice s ((j + 1) * (cs - ov)) ((j + 1) * (cs - ov) + cs)) = true)) ∧
    (segment scenarioDoc 50 10 = .ok
      [⟨0, pystr "Introducción."⟩,
       ⟨1, pystr "Este informe trata del sector audiovisual. Incluye"⟩,
       ⟨2, pystr "l. Incluye datos de 2025."⟩,
       ⟨3, pystr "s de 2025."⟩] ∧
     (lastChars 10 (pystr "Este informe trata del sector audiovisual. Incluye")).isPrefixOf
        (pystr "l. Incluye datos de 2025.") = true ∧
     (lastChars 10 (pystr "l. Incluye datos de 2025.")).isPrefixOf
        (pystr "s de 2025.") = true ∧
     ((List.range 10).all (fun k =>
        !((lastChars (k + 1) (pystr "Introducción.")).isPrefixOf
          (pystr "Este informe trata del sector audiovisual. Incluye")))) = true) := by
  constructor
  · intro s cs ov j hov hlt hfull
    have hstep : 0 < cs - ov := by omega
    have hj : j < (s.length + (cs - ov) - 1) / (cs - ov) :=
      lt_ceil_div s.length (cs - ov) j hstep (by omega)
    have hj1 : j + 1 < (s.length + (cs - ov) - 1) / (cs - ov) := by
      refine lt_ceil_div s.length (cs - ov) (j + 1) hstep ?_
      rw [Nat.succ_mul]
      omega
    refine ⟨?_, ?_, ?_⟩
    · unfold hardPieces rangeStep
      rw [List.getElem?_map, List.getElem?_map, List.getElem?_range hj]
      rfl
    · unfold hardPieces rangeStep
      rw [List.getElem?_map, List.getElem?_map, List.getElem?_range hj1]
      rfl
    · have hlen : (slice s (j * (cs - ov)) (j * (cs - ov) + cs)).length = cs := by
        unfold slice
        rw [List.length_take, List.length_drop]
        omega
      have hsl1 : slice s (j * (cs - ov)) (j * (cs - ov) + cs) =
          (s.drop (j * (cs - ov))).take cs := by
        unfold slice
        congr 1
        omega
      have hsl2 : slice s ((j + 1) * (cs - ov)) ((j + 1) * (cs - ov) + cs) =
          (s.drop (j * (cs - ov) + (cs - ov))).take cs := by
        unfold slice
        rw [Nat.succ_mul]
        congr 1
        omega
      unfold lastChars
      rw [hlen, hsl1, hsl2, List.drop_take, List.drop_drop]
      have h1 : cs - (cs - ov) = ov := by omega
      rw [h1]
      have h3 : (s.drop (j * (cs - ov) + (cs - ov))).take ov =
          ((s.drop (j * (cs - ov) + (cs - ov))).take cs).take ov := by
        rw [List.take_take]
        congr 1
        omega
      rw [h3]
      exact take_isPrefixOf _ ov
  · exact ⟨rfl, rfl, rfl, rfl⟩

/-- Witness for C1's general hard-split conjunct at
`s = "abcdefghijkl"`, `chunk_size = 5`, `overlap = 2`, `j = 0`. -/
theorem claim_C1_witness :
    (hardPieces (pystr "abcdefghijkl") 5 2)[0]? =
        some (slice (pystr "abcdefghijkl") (0 * (5 - 2)) (0 * (5 - 2) + 5)) ∧
    (hardPieces (pystr "abcdefghijkl") 5 2)[0 + 1]? =
        some (slice (pystr "abcdefghijkl") ((0 + 1) * (5 - 2)) ((0 + 1) * (5 - 2) + 5)) ∧
    (lastChars 2 (slice (pystr "abcdefghijkl") (0 * (5 - 2)) (0 * (5 - 2) + 5))).isPrefixOf
        (slice (pystr "abcdefghijkl") ((0 + 1) * (5 - 2)) ((0 + 1) * (5 - 2) + 5)) = true :=
  claim_C1.1 (pystr "abcdefghijkl") 5 2 0 (by decide) (by decide) (by decide)

end Cordoba
